import Mathlib

/-!
Verification of the transcriber repository's core pipeline against its
natural-language specification.

The definitions below are a shallow embedding of the Python source:

* `src/transcriber/transcript.py` — `TranscriptManager` (ordered output
  queue, dedup between the realtime and fallback paths, text filtering);
* `src/transcriber/audio_buffer.py` — `AudioBuffer` (timeout checker and
  best-offset chunk search);
* `src/transcriber/session.py` — event routing for completed transcripts
  and the reconnection loop;
* `src/transcriber/typer/typer.py` and `src/transcriber/typer/backends.py`
  — `KeyboardTyper.type_text` and the wtype keycode-22 splitter.

Strings are modelled as `List Char`, wall-clock instants and float
durations as `ℚ`, millisecond timestamps as `ℤ`, and Python dicts keyed by
item id as association lists. Fallible external calls (the Whisper API,
typing backends) are oracle parameters.
-/

namespace Transcriber

/-- The set of characters Python's `str.isspace` (and hence `re` class
`\s` on `str` patterns, and `str.strip`) treats as whitespace. -/
def pyIsSpace (c : Char) : Bool :=
  c ∈ [' ', '\t', '\n', '\r', '\x0b', '\x0c',
       '\x1c', '\x1d', '\x1e', '\x1f', '\x85', ' ', ' ',
       ' ', ' ', ' ', ' ', ' ', ' ',
       ' ', ' ', ' ', ' ', ' ',
       ' ', ' ', ' ', ' ', '　']

/-- ASCII fragment of Python's `str.isalnum`. -/
def pyIsAlnum (c : Char) : Bool :=
  c.isAlpha || c.isDigit

/-- Streaming form of `re.sub(r"\s+", " ", text)`: `afterSpace` records
whether the scan stands inside a whitespace run whose single output
space was already emitted. -/
def collapseWsAux (afterSpace : Bool) : List Char → List Char
  | [] => []
  | c :: rest =>
    if pyIsSpace c then
      if afterSpace then collapseWsAux true rest
      else ' ' :: collapseWsAux true rest
    else c :: collapseWsAux false rest

/-- `re.sub(r"\s+", " ", text)` from `TranscriptManager.filter_text`
(transcript.py line 168): every maximal whitespace run becomes one
space. -/
def collapseWs (cs : List Char) : List Char :=
  collapseWsAux false cs

/-- Python `str.strip()`: drop leading and trailing whitespace. -/
def stripWs (cs : List Char) : List Char :=
  (cs.dropWhile pyIsSpace).rdropWhile pyIsSpace

/-- Fuelled scan for `subLiteral`; one unit of fuel is spent per scan
position, and the scan advances by at least one character per step, so
`cs.length` fuel always suffices. -/
def subLiteralAux (pat : List Char) : Nat → List Char → List Char
  | 0, cs => cs
  | fuel + 1, [] => []
  | fuel + 1, c :: rest =>
    if pat.isPrefixOf (c :: rest) then subLiteralAux pat fuel ((c :: rest).drop pat.length)
    else c :: subLiteralAux pat fuel rest

/-- Python `re.sub(pat, "", s)` for a pattern that is a plain literal
string (no metacharacters): remove each leftmost occurrence, continue
scanning after it, never rescan removed text. This is the fragment of the
`pattern.sub("", text)` calls in `TranscriptManager.filter_text` needed
for configurations whose patterns are literal strings. -/
def subLiteral (pat : List Char) (cs : List Char) : List Char :=
  if pat = [] then cs else subLiteralAux pat cs.length cs

/-- A loaded filter configuration: the three pattern lists compiled by
`TranscriptManager._reload_filters` from `filters.yaml`
(`hallucinations`, `fillers`, `non_ascii`), restricted to literal
patterns with empty replacement. -/
structure FilterConfig where
  hallucinations : List (List Char)
  fillers : List (List Char)
  nonAscii : List (List Char)

/-- The configuration `_load_filters` yields when `filters.yaml` is
absent: all three pattern lists empty. -/
def emptyFilterConfig : FilterConfig :=
  ⟨[], [], []⟩

/-- `TranscriptManager.filter_text` (transcript.py lines 137-170):
apply the hallucination, filler and non-ASCII substitutions (each unless
its `allow_*` flag is set), then collapse whitespace and strip. The
dynamic `_reload_filters` call is file I/O and is modelled by taking the
loaded configuration as an argument. -/
def filterText (cfg : FilterConfig) (allowByeThankYou allowFillers allowNonAscii : Bool)
    (text : List Char) : List Char :=
  if text = [] then text
  else
    let t1 := if allowByeThankYou then text
              else cfg.hallucinations.foldl (fun t p => subLiteral p t) text
    let t2 := if allowFillers then t1
              else cfg.fillers.foldl (fun t p => subLiteral p t) t1
    let t3 := if allowNonAscii then t2
              else cfg.nonAscii.foldl (fun t p => subLiteral p t) t2
    stripWs (collapseWs t3)

/-! ## Ordered output queue (`TranscriptManager`, transcript.py) -/

/-- Python-dict update on an association list keyed by item id:
`d[k] = v` overwrites an existing binding or appends a new one. -/
def dictInsert (k : String) (v : β) : List (String × β) → List (String × β)
  | [] => [(k, v)]
  | (k', v') :: rest =>
    if k' = k then (k, v) :: rest else (k', v') :: dictInsert k v rest

/-- Python-dict `pop(k)`: drop the binding for `k`. -/
def dictErase (k : String) : List (String × β) → List (String × β)
  | [] => []
  | (k', v') :: rest =>
    if k' = k then rest else (k', v') :: dictErase k rest

/-- Python-dict lookup `d.get(k)`. -/
def dictFind (k : String) : List (String × β) → Option β
  | [] => none
  | (k', v') :: rest => if k' = k then some v' else dictFind k rest

/-- The `TranscriptManager` state touched by the ordering claims:

* `itemOrder` — `self.item_order`, creation order of item ids;
* `completedTranscripts` — `self.completed_transcripts`;
* `nextOutputIndex` — `self.next_output_index`;
* `speechTimes` — the `completed` flag of each entry of the shared
  `item_speech_times` dict (the only field the queue reads);
* `outputs` — the downstream emissions performed by
  `_output_transcript`, in order, each tagged with the item id the
  ordered gate emitted it for (`none` for the empty-item-id bypass).

A Python `None` item id and the empty string are both falsy; both are
modelled as `""`. -/
structure TMState where
  itemOrder : List String
  completedTranscripts : List (String × String)
  nextOutputIndex : Nat
  speechTimes : List (String × Bool)
  outputs : List (Option String × String)
deriving Repr, DecidableEq

/-- Initial `TranscriptManager` state (constructor / `reset`). -/
def TMState.init : TMState :=
  ⟨[], [], 0, [], []⟩

/-- One iteration step count for `_flush_ordered_transcripts`: the loop
advances `next_output_index` by one per emission and `item_order` never
changes inside it, so `item_order.length - next_output_index` iterations
always suffice; the fuel makes the recursion structural. -/
def flushAux : Nat → TMState → TMState
  | 0, s => s
  | fuel + 1, s =>
    if h : s.nextOutputIndex < s.itemOrder.length then
      match dictFind (s.itemOrder.get ⟨s.nextOutputIndex, h⟩) s.completedTranscripts with
      | some transcript =>
        flushAux fuel
          { s with
            completedTranscripts :=
              dictErase (s.itemOrder.get ⟨s.nextOutputIndex, h⟩) s.completedTranscripts
            outputs := s.outputs ++ [(some (s.itemOrder.get ⟨s.nextOutputIndex, h⟩), transcript)]
            nextOutputIndex := s.nextOutputIndex + 1 }
      | none => s
    else s

/-- `TranscriptManager._flush_ordered_transcripts` (transcript.py lines
229-242): output completed transcripts in creation order until the next
item in `item_order` has no completed transcript. -/
def flushOrderedTranscripts (s : TMState) : TMState :=
  flushAux (s.itemOrder.length - s.nextOutputIndex) s

/-- `TranscriptManager.handle_completed_transcript` (transcript.py lines
208-227): dedup against the shared `completed` flag (fallback/realtime
race), output immediately when the item id is falsy, otherwise buffer
and flush in creation order. -/
def handleCompletedTranscript (s : TMState) (itemId transcript : String) : TMState :=
  if itemId ≠ "" ∧ dictFind itemId s.speechTimes ≠ none then
    if dictFind itemId s.speechTimes = some true then s
    else
      let s' := { s with speechTimes := dictInsert itemId true s.speechTimes }
      flushOrderedTranscripts
        { s' with completedTranscripts := dictInsert itemId transcript s'.completedTranscripts }
  else if itemId = "" then
    { s with outputs := s.outputs ++ [(none, transcript)] }
  else
    flushOrderedTranscripts
      { s with completedTranscripts := dictInsert itemId transcript s.completedTranscripts }

/-- `TranscriptManager.track_item_creation` (transcript.py lines
203-206): append a truthy, unseen item id to `item_order`. -/
def trackItemCreation (s : TMState) (itemId : String) : TMState :=
  if itemId ≠ "" ∧ itemId ∉ s.itemOrder then
    { s with itemOrder := s.itemOrder ++ [itemId] }
  else s

/-- The inbound occurrences that drive the ordering state, as routed by
`TranscriptionSession.on_message` and the audio-buffer fallback:
`created` is a `conversation.item.created` event, `speechStarted` is an
`input_audio_buffer.speech_started` event (which creates the
`item_speech_times` entry with `completed: False`), and `completed` is a
call to `handle_completed_transcript` from either the realtime or the
fallback path. -/
inductive Event where
  | created (itemId : String)
  | speechStarted (itemId : String)
  | completed (itemId transcript : String)
deriving Repr, DecidableEq

/-- Effect of one event on the `TranscriptManager` state.
`session.py` routes `created`/`speech_started` only for truthy ids;
`record_speech_started` stores a fresh `{completed: False}` entry. -/
def tmStep (s : TMState) : Event → TMState
  | .created itemId => trackItemCreation s itemId
  | .speechStarted itemId =>
    if itemId ≠ "" then { s with speechTimes := dictInsert itemId false s.speechTimes }
    else s
  | .completed itemId transcript => handleCompletedTranscript s itemId transcript

/-- State of the `TranscriptManager` after a trace of events. -/
def tmRun (events : List Event) : TMState :=
  events.foldl tmStep TMState.init

/-! ## Audio buffer (`AudioBuffer`, audio_buffer.py) -/

/-- The fields of an `item_speech_times` entry read by
`AudioBuffer._check_timeouts`: the `completed` flag and the optional
`stopped_at` wall clock (absent until `record_speech_stopped` runs).
`start_ms`/`end_ms` only feed the metrics duration and the fallback
slice, which the timeout claim abstracts into the fallback oracle. -/
structure ItemTimes where
  completed : Bool
  stoppedAt : Option ℚ
deriving Repr, DecidableEq

/-- One sweep of the loop body of `AudioBuffer._check_timeouts`
(audio_buffer.py lines 119-144), returning the `(item_id, transcript)`
completions it delivers through `on_transcript_complete`. Items that are
already completed or have not stopped are skipped; for a timed-out item
the fallback result (`_fallback_transcribe`, an HTTP call modelled as
the oracle `fallback`) is delivered when truthy, and the explicit
give-up `""` otherwise. -/
def checkTimeoutsSweep (now timeoutSeconds : ℚ) (fallback : String → Option String)
    (items : List (String × ItemTimes)) : List (String × String) :=
  items.filterMap fun entry =>
    if entry.2.completed then none
    else
      match entry.2.stoppedAt with
      | none => none
      | some stopped =>
        if timeoutSeconds ≤ now - stopped then
          match fallback entry.1 with
          | some transcript => if transcript = "" then some (entry.1, "") else some (entry.1, transcript)
          | none => some (entry.1, "")
        else none

/-- Python `range(start, stop, step)` for a positive step, over `ℤ`. -/
def pyRange (start stop step : ℤ) : List ℤ :=
  (List.range ((stop - start + step - 1).ediv step).toNat).map fun k : ℕ =>
    start + step * (k : ℤ)

/-- Duration in ms the fallback assigns to `n` buffered chunks:
`n * (1024 / 24000 * 1000)` (audio_buffer.py line 168). The source
computes this in binary floating point; it is modelled exactly in `ℚ`,
which only affects which of two near-tied offsets wins, never whether a
non-empty candidate list exists. -/
def chunkDurationMs (n : Nat) : ℚ :=
  n * (1024 / 24000 * 1000)

/-- `e < best` where `best = none` stands for Python's initial
`float('inf')`. -/
def ltOptErr (e : ℚ) : Option ℚ → Bool
  | none => true
  | some b => decide (e < b)

/-- The `candidate_chunks` comprehension of
`AudioBuffer._find_best_chunk_match` at one offset: the buffered chunks
whose timestamp lies inclusively in the shifted window. -/
def offsetCandidates (buffer : List (ℤ × β)) (startMs endMs offset : ℤ) : List β :=
  (buffer.filter fun p =>
    decide (startMs + offset ≤ p.1 ∧ p.1 ≤ endMs + offset)).map Prod.snd

/-- `abs(expected_duration_ms - actual_duration_ms)` for `n` candidate
chunks. -/
def offsetDurationError (startMs endMs : ℤ) (n : Nat) : ℚ :=
  |((endMs - startMs : ℤ) : ℚ) - chunkDurationMs n|

/-- Loop body of `AudioBuffer._find_best_chunk_match` for one candidate
offset: gather the buffered chunks whose timestamp lies in the shifted
window and keep them iff their duration error beats the best so far. -/
def bestMatchStep (buffer : List (ℤ × β)) (startMs endMs : ℤ)
    (acc : Option (List β) × Option ℚ × Option ℤ) (offset : ℤ) :
    Option (List β) × Option ℚ × Option ℤ :=
  if (offsetCandidates buffer startMs endMs offset).isEmpty then acc
  else
    if ltOptErr (offsetDurationError startMs endMs
        (offsetCandidates buffer startMs endMs offset).length) acc.2.1 then
      (some (offsetCandidates buffer startMs endMs offset),
        some (offsetDurationError startMs endMs
          (offsetCandidates buffer startMs endMs offset).length),
        some offset)
    else acc

/-- `AudioBuffer._find_best_chunk_match` (audio_buffer.py lines
146-176): try offsets `range(-margin, margin + 1, 20)` and return the
chunks of the offset minimising the duration error, together with that
error and offset (`none` components model the initial
`None`/`float('inf')`). -/
def findBestChunkMatch (margin : ℤ) (buffer : List (ℤ × β)) (startMs endMs : ℤ) :
    Option (List β) × Option ℚ × Option ℤ :=
  (pyRange (-margin) (margin + 1) 20).foldl (bestMatchStep buffer startMs endMs)
    (none, none, none)

/-! ## Session event routing and reconnection (`TranscriptionSession`, session.py) -/

/-- The `conversation.item.input_audio_transcription.completed` branch of
`TranscriptionSession.on_message` (session.py lines 168-174): given the
event's `item_id` and `transcript` fields and the current partial
display buffer, return the `(item_id, transcript)` call made to
`handle_completed_transcript` (if any) and the new buffer contents. -/
def routeTranscriptionCompleted (itemId : Option String) (transcript : String)
    (buffer : String) : Option (Option String × String) × String :=
  if transcript ≠ "" then (some (itemId, transcript), "")
  else (none, buffer)

/-- The reconnection tail of `TranscriptionSession.run` (session.py
lines 394-437), driven by a script of connection outcomes: `true` means
the connection ended with `should_reconnect` set (abnormal close or
session expiry), `false` means a normal close. The first component
accumulates the backoff delays slept before each reconnection attempt,
the second reports whether the max-attempt guard fired. The argument of
the recursive call is the slip under scrutiny: the code executes
`self.reconnect_attempts = 0` unconditionally after the sleep and state
reset, before the next connection is attempted. -/
def pyMin (a b : ℚ) : ℚ :=
  if a ≤ b then a else b

def reconnectLoop : Nat → List Bool → List ℚ × Bool
  | _, [] => ([], false)
  | attempts, shouldReconnect :: rest =>
    if shouldReconnect then
      let attempts' := attempts + 1
      if 10 < attempts' then ([], true)
      else
        let delay : ℚ := pyMin ((1 : ℚ) * 2 ^ (attempts' - 1)) 30
        let tail := reconnectLoop 0 rest
        (delay :: tail.1, tail.2)
    else ([], false)

/-- Delays slept by `TranscriptionSession.run` for a given outcome
script, starting from `reconnect_attempts = 0`. -/
def reconnectDelays (script : List Bool) : List ℚ :=
  (reconnectLoop 0 script).1

/-- Whether `TranscriptionSession.run` ever gives up via the
`max_reconnect_attempts` guard on a given outcome script. -/
def reconnectGivesUp (script : List Bool) : Bool :=
  (reconnectLoop 0 script).2

/-! ## Keyboard typer (`KeyboardTyper.type_text` and the wtype splitter) -/

/-- `KeyboardTyper.type_text` (typer/typer.py lines 120-138). The
selected backend is an oracle `method` (`none` when no typing method is
available) returning `Except Unit Bool` to model an exception versus a
boolean result. Besides the boolean result, the model records the list
of texts passed to the backend, so "no backend was invoked" is visible. -/
def typeText (method : Option (List Char → Except Unit Bool)) (text : List Char) :
    Bool × List (List Char) :=
  if stripWs text = [] then (true, [])
  else
    match method with
    | none => (false, [])
    | some m =>
      match m text with
      | .ok ok => (ok, [text])
      | .error _ => (false, [text])

/-- `UNSAFE_AT_22` from `_split_for_wtype_keycode22`
(typer/backends.py line 139). -/
def unsafeAt22 : List Char :=
  [' ', '!', '"', '#', '$', '\'', '(', ')', '*', '+', ',', '-', '.', '/',
   ':', ';', '=', '>', '?', '@', '[', '\\', ']', '^', '_']

/-- The scanning loop inside `_split_for_wtype_keycode22` (typer/
backends.py lines 152-160) over the remaining text, carrying the `seen`
set (as its first-occurrence list: a Python set is only read through
membership and `len`), the current absolute index `i` and
`last_alnum_before_14`. Returns `(pos14_index, last_alnum_before_14)`
relative to the scanned suffix's start. -/
def scanAux : List Char → List Char → Nat → Option Nat → Option Nat × Option Nat
  | [], _, _, lastAlnum => (none, lastAlnum)
  | c :: rest, seen, i, lastAlnum =>
    if c ∈ seen then
      scanAux rest seen (i + 1) (if pyIsAlnum c then some i else lastAlnum)
    else if seen.length + 1 = 14 then (some i, lastAlnum)
    else scanAux rest (seen ++ [c]) (i + 1) (if pyIsAlnum c then some i else lastAlnum)

/-- Scan of one chunk candidate starting with an empty `seen` set. -/
def scan14 (cs : List Char) : Option Nat × Option Nat :=
  scanAux cs [] 0 none

/-- A `last_alnum_before_14` index reported by the scan is either the
incoming one or an index of the scanned suffix. -/
theorem scanAux_snd_some (cs : List Char) : ∀ (seen : List Char) (i : Nat)
    (la : Option Nat) (j : Nat), (scanAux cs seen i la).2 = some j →
    la = some j ∨ (i ≤ j ∧ j < i + cs.length) := by
  induction cs with
  | nil =>
    intro seen i la j h
    exact Or.inl h
  | cons c rest ih =>
    intro seen i la j h
    rw [scanAux] at h
    by_cases hmem : c ∈ seen
    · rw [if_pos hmem] at h
      rcases ih seen (i + 1) _ j h with h' | h'
      · by_cases hal : pyIsAlnum c
        · rw [if_pos hal] at h'
          obtain rfl : i = j := by simpa using h'
          exact Or.inr ⟨le_refl _, by simp only [List.length_cons]; omega⟩
        · rw [if_neg hal] at h'
          exact Or.inl h'
      · refine Or.inr ⟨by omega, ?_⟩
        have := h'.2
        simp only [List.length_cons]
        omega
    · rw [if_neg hmem] at h
      by_cases h14 : seen.length + 1 = 14
      · rw [if_pos h14] at h
        exact Or.inl h
      · rw [if_neg h14] at h
        rcases ih (seen ++ [c]) (i + 1) _ j h with h' | h'
        · by_cases hal : pyIsAlnum c
          · rw [if_pos hal] at h'
            obtain rfl : i = j := by simpa using h'
            exact Or.inr ⟨le_refl _, by simp only [List.length_cons]; omega⟩
          · rw [if_neg hal] at h'
            exact Or.inl h'
        · refine Or.inr ⟨by omega, ?_⟩
          have := h'.2
          simp only [List.length_cons]
          omega

/-- Bound used for the splitter's termination: a reported
`last_alnum_before_14` is an index into the chunk. -/
theorem scan14_snd_lt (cs : List Char) (j : Nat) (h : (scan14 cs).2 = some j) :
    j < cs.length := by
  rcases scanAux_snd_some cs [] 0 none j h with h' | h'
  · exact absurd h' (by simp)
  · simpa using h'.2

/-- The splitting loop of `_split_for_wtype_keycode22` (typer/backends.py
lines 147-169) from a given start position, operating on the remaining
suffix: scan for the 14th distinct character; if it exists, is one of
the unsafe punctuation characters and an alphanumeric index strictly
after the start precedes it, cut the chunk at the last such index and
continue there; otherwise the remainder is the final chunk. Each split
removes at least one character, so `cs.length` fuel always suffices. -/
def splitGoAux : Nat → List Char → List (List Char)
  | 0, cs => [cs]
  | fuel + 1, cs =>
    match scan14 cs with
    | (none, _) => [cs]
    | (some _, none) => [cs]
    | (some p, some j) =>
      if cs.getD p 'a' ∈ unsafeAt22 ∧ 0 < j then
        cs.take j :: splitGoAux fuel (cs.drop j)
      else [cs]

/-- `_split_for_wtype_keycode22` (typer/backends.py lines 129-171). -/
def splitForWtypeKeycode22 (text : List Char) : List (List Char) :=
  if text = [] then [] else splitGoAux text.length text

/-- The distinct characters of a chunk in first-occurrence order; its
`n`-th entry is the chunk's `n`-th distinct character and its length is
the number of distinct characters. -/
def distinctSeq (cs : List Char) : List Char :=
  cs.foldl (fun acc c => if c ∈ acc then acc else acc ++ [c]) []

/-! ## Invariants of the ordered output queue -/

/-- Item ids of the order-gated emissions, in emission order. -/
def emittedIds (s : TMState) : List String :=
  s.outputs.filterMap Prod.fst

/-- Invariant of the `TranscriptManager` ordering state: the order-gated
emissions so far are exactly the first `next_output_index` entries of
`item_order` in creation order, `item_order` has no duplicates, and the
cursor never passes the end of `item_order`. -/
def TMInv (s : TMState) : Prop :=
  emittedIds s = s.itemOrder.take s.nextOutputIndex ∧
    s.itemOrder.Nodup ∧ s.nextOutputIndex ≤ s.itemOrder.length

theorem flushAux_itemOrder (fuel : Nat) : ∀ s : TMState,
    (flushAux fuel s).itemOrder = s.itemOrder := by
  induction fuel with
  | zero => intro s; rfl
  | succ fuel ih =>
    intro s
    rw [flushAux]
    split
    · split
      · rw [ih]
      · rfl
    · rfl

theorem flushAux_inv (fuel : Nat) : ∀ s : TMState, TMInv s → TMInv (flushAux fuel s) := by
  induction fuel with
  | zero => intro s h; exact h
  | succ fuel ih =>
    intro s h
    rw [flushAux]
    split
    case isTrue hlt =>
      split
      case h_1 transcript hfind =>
        apply ih
        obtain ⟨h1, h2, h3⟩ := h
        refine ⟨?_, h2, hlt⟩
        show (s.outputs ++ [(some (s.itemOrder.get ⟨s.nextOutputIndex, hlt⟩), transcript)]).filterMap
          Prod.fst = s.itemOrder.take (s.nextOutputIndex + 1)
        rw [List.filterMap_append, List.take_succ]
        have : s.itemOrder[s.nextOutputIndex]? = some (s.itemOrder.get ⟨s.nextOutputIndex, hlt⟩) := by
          simp [List.getElem?_eq_getElem hlt]
        rw [this]
        exact congrArg₂ (· ++ ·) h1 rfl
      case h_2 => exact h
    case isFalse => exact h

/-- Every output appended by the flush loop is tagged with an item id
from `item_order`. -/
theorem flushAux_outputs (fuel : Nat) : ∀ s : TMState, ∃ L,
    (flushAux fuel s).outputs = s.outputs ++ L ∧
      ∀ e ∈ L, ∃ itemId transcript, e = (some itemId, transcript) ∧ itemId ∈ s.itemOrder := by
  induction fuel with
  | zero => intro s; exact ⟨[], (List.append_nil s.outputs).symm, by simp⟩
  | succ fuel ih =>
    intro s
    rw [flushAux]
    split
    case isTrue hlt =>
      split
      case h_1 transcript hfind =>
        obtain ⟨L, hL1, hL2⟩ := ih
          { s with
            completedTranscripts := dictErase (s.itemOrder.get ⟨s.nextOutputIndex, hlt⟩) s.completedTranscripts
            outputs := s.outputs ++ [(some (s.itemOrder.get ⟨s.nextOutputIndex, hlt⟩), transcript)]
            nextOutputIndex := s.nextOutputIndex + 1 }
        refine ⟨(some (s.itemOrder.get ⟨s.nextOutputIndex, hlt⟩), transcript) :: L, ?_, ?_⟩
        · simpa using hL1
        · intro e he
          rcases List.mem_cons.mp he with rfl | he'
          · exact ⟨_, transcript, rfl, List.get_mem _ _ _⟩
          · exact hL2 e he'
      case h_2 => exact ⟨[], (List.append_nil s.outputs).symm, by simp⟩
    case isFalse => exact ⟨[], (List.append_nil s.outputs).symm, by simp⟩

theorem handleCompleted_inv (s : TMState) (itemId transcript : String) (h : TMInv s) :
    TMInv (handleCompletedTranscript s itemId transcript) := by
  unfold handleCompletedTranscript
  split
  · split
    · exact h
    · apply flushAux_inv
      exact ⟨by simpa [emittedIds] using h.1, h.2.1, h.2.2⟩
  · split
    · obtain ⟨h1, h2, h3⟩ := h
      refine ⟨?_, h2, h3⟩
      show (s.outputs ++ [((none : Option String), transcript)]).filterMap Prod.fst = _
      rw [List.filterMap_append]
      simpa using h1
    · apply flushAux_inv
      exact ⟨by simpa [emittedIds] using h.1, h.2.1, h.2.2⟩

theorem trackItemCreation_inv (s : TMState) (itemId : String) (h : TMInv s) :
    TMInv (trackItemCreation s itemId) := by
  unfold trackItemCreation
  split
  case isTrue hc =>
    obtain ⟨h1, h2, h3⟩ := h
    refine ⟨?_, ?_, ?_⟩
    · show emittedIds s = (s.itemOrder ++ [itemId]).take s.nextOutputIndex
      rw [List.take_append_of_le_length h3]
      exact h1
    · exact (by simp [List.nodup_append, h2, hc.2] : (s.itemOrder ++ [itemId]).Nodup)
    · simp only [List.length_append, List.length_cons, List.length_nil]
      omega
  case isFalse => exact h

theorem tmStep_inv (s : TMState) (e : Event) (h : TMInv s) : TMInv (tmStep s e) := by
  cases e with
  | created itemId => exact trackItemCreation_inv s itemId h
  | speechStarted itemId =>
    show TMInv (if itemId ≠ "" then
      { s with speechTimes := dictInsert itemId false s.speechTimes } else s)
    split
    · exact h
    · exact h
  | completed itemId transcript => exact handleCompleted_inv s itemId transcript h

theorem tmRun_inv (events : List Event) : TMInv (tmRun events) := by
  have base : TMInv TMState.init := ⟨rfl, List.nodup_nil, Nat.le_refl 0⟩
  unfold tmRun
  induction events using List.reverseRecOn with
  | nil => exact base
  | append_singleton es e ih =>
    rw [List.foldl_append]
    exact tmStep_inv _ e ih

/-! ## Claims about the ordered output queue (C1, C2, C5) -/

/-- Claim C1: for every transcript emitted by the ordered output queue
whose item id has a creation event, every item id occupying an earlier
position in `item_order` (smaller creation sequence) has already been
emitted — possibly as the empty give-up text. Completions may arrive in
any order (the trace is arbitrary), but emission follows creation
order. -/
theorem ordered_queue_emits_in_creation_order (events : List Event) (k i j : Nat)
    (itemId itemId' transcript : String)
    (hk : (tmRun events).outputs[k]? = some (some itemId, transcript))
    (hj : (tmRun events).itemOrder[j]? = some itemId)
    (hi : (tmRun events).itemOrder[i]? = some itemId')
    (hij : i < j) :
    ∃ k' transcript', k' < k ∧
      (tmRun events).outputs[k']? = some (some itemId', transcript') := by
  obtain ⟨h1, h2, h3⟩ := tmRun_inv events
  set s := tmRun events with hs
  have hklen : k < s.outputs.length := by
    by_contra hge
    rw [List.getElem?_eq_none (Nat.le_of_not_lt hge)] at hk
    exact Option.noConfusion hk
  -- Split the outputs at position k.
  have hdrop : s.outputs.drop k = (some itemId, transcript) :: s.outputs.drop (k + 1) := by
    rw [List.drop_eq_getElem_cons hklen]
    have : s.outputs[k] = (some itemId, transcript) := by
      have := List.getElem?_eq_getElem hklen
      rw [this] at hk
      exact Option.some.inj hk
    rw [this]
  have hout : s.outputs = s.outputs.take k ++ (some itemId, transcript) :: s.outputs.drop (k + 1) := by
    conv_lhs => rw [← List.take_append_drop k s.outputs]
    rw [hdrop]
  -- The emitted ids therefore decompose around itemId.
  have hemit : emittedIds s =
      (s.outputs.take k).filterMap Prod.fst ++ itemId :: (s.outputs.drop (k + 1)).filterMap Prod.fst := by
    unfold emittedIds
    conv_lhs => rw [hout]
    rw [List.filterMap_append]
    rfl
  set A := (s.outputs.take k).filterMap Prod.fst with hA
  -- itemId sits at position A.length of the emitted-id sequence.
  have hmid : (emittedIds s)[A.length]? = some itemId := by
    rw [hemit, List.getElem?_append_right (Nat.le_refl A.length)]
    simp
  -- Hence itemId is at position A.length of item_order, before the cursor.
  have hmlt : A.length < s.nextOutputIndex := by
    by_contra hge
    rw [h1, List.getElem?_take] at hmid
    rw [if_neg (by omega)] at hmid
    exact Option.noConfusion hmid
  have horder : s.itemOrder[A.length]? = some itemId := by
    rw [h1, List.getElem?_take, if_pos hmlt] at hmid
    exact hmid
  -- Nodup forces j = A.length, so i < A.length.
  have hjlen : j < s.itemOrder.length := by
    by_contra hge
    rw [List.getElem?_eq_none (Nat.le_of_not_lt hge)] at hj
    exact Option.noConfusion hj
  have hj_eq : j = A.length := List.getElem?_inj hjlen h2 (hj.trans horder.symm)
  have hi_lt : i < A.length := by omega
  -- The earlier item id appears among the first A.length emitted ids.
  have hi_emit : (emittedIds s)[i]? = some itemId' := by
    rw [h1, List.getElem?_take, if_pos (by omega)]
    exact hi
  have hi_A : A[i]? = some itemId' := by
    rw [hemit, List.getElem?_append, if_pos hi_lt] at hi_emit
    exact hi_emit
  have hmemA : itemId' ∈ A := List.getElem?_mem hi_A
  obtain ⟨e, he_mem, he_fst⟩ := List.mem_filterMap.mp (hA ▸ hmemA)
  obtain ⟨k', hk'lt, he_get⟩ := List.getElem_of_mem he_mem
  have hk'k : k' < k := Nat.lt_of_lt_of_le hk'lt (by simp)
  refine ⟨k', e.2, hk'k, ?_⟩
  have : s.outputs[k']? = some e := by
    have htk : (s.outputs.take k)[k']? = some e := by
      rw [List.getElem?_eq_getElem hk'lt, he_get]
    rw [List.getElem?_take, if_pos hk'k] at htk
    exact htk
  rw [this, he_fst.symm]

/-- Witness trace for C1: `a` then `b` are created, `b` completes first,
yet `a` is emitted first (output index 0) before `b` (output index 1). -/
theorem ordered_queue_emits_in_creation_order_witness :
    ∃ k' transcript', k' < 1 ∧
      (tmRun [Event.created "a", Event.created "b",
              Event.completed "b" "w", Event.completed "a" "h"]).outputs[k']? =
        some (some "a", transcript') :=
  ordered_queue_emits_in_creation_order
    [Event.created "a", Event.created "b", Event.completed "b" "w", Event.completed "a" "h"]
    1 0 1 "b" "a" "w" (by decide) (by decide) (by decide) (by decide)

/-- Claim C2: for every item id, at most one transcript is ever emitted
downstream, across both the realtime and the fallback completion paths:
the outputs of any event trace contain at most one emission tagged with
a given item id (a second completion for an already-completed item is
discarded). -/
theorem at_most_one_emission_per_item (events : List Event) (itemId : String) :
    ((tmRun events).outputs.countP fun e => decide (e.1 = some itemId)) ≤ 1 := by
  obtain ⟨h1, h2, _⟩ := tmRun_inv events
  have hcount : ∀ l : List (Option String × String),
      (l.countP fun e => decide (e.1 = some itemId)) = (l.filterMap Prod.fst).count itemId := by
    intro l
    induction l with
    | nil => rfl
    | cons e rest ih =>
      rcases e with ⟨fst, snd⟩
      cases fst with
      | none => simpa [List.countP_cons] using ih
      | some x =>
        by_cases hx : x = itemId
        · subst hx
          simp [List.countP_cons, List.count_cons, ih]
        · simp [List.countP_cons, List.count_cons, hx, ih]
  rw [hcount]
  calc ((tmRun events).outputs.filterMap Prod.fst).count itemId
      = ((tmRun events).itemOrder.take (tmRun events).nextOutputIndex).count itemId := by
        rw [← h1]; rfl
    _ ≤ (tmRun events).itemOrder.count itemId :=
        (List.take_sublist _ _).count_le itemId
    _ ≤ 1 := List.nodup_iff_count_le_one.mp h2 itemId

/-- Counterexample to claim C5 as stated: a completed transcript whose
(non-empty) item id never had a creation event is *not* output
immediately — the queue buffers it in `completed_transcripts` and emits
nothing. -/
theorem completed_without_creation_not_output_immediately :
    (tmRun [Event.completed "X" "hi"]).outputs = [] ∧
      (tmRun [Event.completed "X" "hi"]).completedTranscripts = [("X", "hi")] := by
  constructor <;> rfl

/-- Claim C5 as amended: the immediate, order-bypassing output happens
exactly for a falsy (absent/empty) item id; a completed transcript with
a non-empty item id that is absent from `item_order` is buffered and
yields no emission for that id at this event (it can only be emitted
after a creation event for it arrives). -/
theorem bypass_only_for_empty_item_id (s : TMState) (itemId transcript : String) :
    (handleCompletedTranscript s "" transcript =
      { s with outputs := s.outputs ++ [(none, transcript)] }) ∧
    (itemId ≠ "" → itemId ∉ s.itemOrder →
      ((handleCompletedTranscript s itemId transcript).outputs.countP
          fun e => decide (e.1 = some itemId)) =
        (s.outputs.countP fun e => decide (e.1 = some itemId))) := by
  constructor
  · unfold handleCompletedTranscript
    rw [if_neg (by simp), if_pos rfl]
  · intro hne hnotin
    have happend : ∀ s' : TMState, s'.outputs = s.outputs → s'.itemOrder = s.itemOrder →
        ((flushOrderedTranscripts s').outputs.countP fun e => decide (e.1 = some itemId)) =
          (s.outputs.countP fun e => decide (e.1 = some itemId)) := by
      intro s' hout horder
      obtain ⟨L, hL1, hL2⟩ := flushAux_outputs (s'.itemOrder.length - s'.nextOutputIndex) s'
      show ((flushAux _ s').outputs.countP _) = _
      rw [hL1, List.countP_append, hout]
      have : (L.countP fun e => decide (e.1 = some itemId)) = 0 := by
        rw [List.countP_eq_zero]
        intro e he
        obtain ⟨id', t', rfl, hid'⟩ := hL2 e he
        have : id' ≠ itemId := by
          intro hcontra
          exact hnotin (hcontra ▸ horder ▸ hid')
        simpa using this
      omega
    unfold handleCompletedTranscript
    by_cases hcond : itemId ≠ "" ∧ dictFind itemId s.speechTimes ≠ none
    · rw [if_pos hcond]
      by_cases hflag : dictFind itemId s.speechTimes = some true
      · rw [if_pos hflag]
      · rw [if_neg hflag]
        exact happend _ rfl rfl
    · rw [if_neg hcond, if_neg hne]
      exact happend _ rfl rfl

/-- Witness for the amended C5: with an item id `"X"` absent from
`item_order`, the empty-id call outputs immediately and the `"X"` call
emits nothing tagged `"X"`. -/
theorem bypass_only_for_empty_item_id_witness :
    (handleCompletedTranscript TMState.init "" "hello" =
      { TMState.init with outputs := [((none : Option String), "hello")] }) ∧
    ((handleCompletedTranscript TMState.init "X" "hi").outputs.countP
        fun e => decide (e.1 = some "X")) =
      (TMState.init.outputs.countP fun e => decide (e.1 = some "X")) :=
  ⟨(bypass_only_for_empty_item_id TMState.init "X" "hello").1,
    (bypass_only_for_empty_item_id TMState.init "X" "hi").2 (by decide) (by decide)⟩

/-! ## Claim C3: the timeout checker always delivers a completion -/

/-- Claim C3: for every utterance whose timeout fires (speech stopped,
not completed, at least `timeout_seconds` elapsed), the timeout sweep
delivers a completion to the ordered output queue: the fallback
transcript when the fallback returns (non-empty) text, and the empty
give-up string when it returns nothing, so a missing realtime
completion never permanently stalls later items. -/
theorem timeout_always_delivers_completion (now timeoutSeconds : ℚ)
    (fallback : String → Option String) (items : List (String × ItemTimes))
    (itemId : String) (times : ItemTimes) (stopped : ℚ)
    (hmem : (itemId, times) ∈ items) (hnc : times.completed = false)
    (hstop : times.stoppedAt = some stopped) (htime : timeoutSeconds ≤ now - stopped) :
    (itemId,
      match fallback itemId with
      | some transcript => if transcript = "" then "" else transcript
      | none => "") ∈ checkTimeoutsSweep now timeoutSeconds fallback items := by
  unfold checkTimeoutsSweep
  apply List.mem_filterMap.mpr
  refine ⟨(itemId, times), hmem, ?_⟩
  cases hf : fallback itemId with
  | none => simp [hnc, hstop, htime, hf]
  | some transcript =>
    by_cases ht : transcript = "" <;> simp [hnc, hstop, htime, hf, ht]

/-- Witness for C3: a stopped, uncompleted item 2.5 s past its stop is
delivered as the empty give-up string when the fallback fails. -/
theorem timeout_always_delivers_completion_witness :
    ("item_a", "") ∈ checkTimeoutsSweep 10 (5 / 2) (fun _ => none)
      [("item_a", ⟨false, some 1⟩)] :=
  timeout_always_delivers_completion 10 (5 / 2) (fun _ => none)
    [("item_a", ⟨false, some 1⟩)] "item_a" ⟨false, some 1⟩ 1
    (by decide) rfl rfl (by norm_num)

/-! ## Claim C4: routing of completed-transcription events -/

/-- Counterexample to claim C4 as stated: a
`conversation.item.input_audio_transcription.completed` event whose
`transcript` field is the empty string makes *no* call to the ordered
output queue and leaves the partial display buffer untouched. -/
theorem route_completed_empty_transcript_skips :
    routeTranscriptionCompleted (some "item_1") "" "pending" = (none, "pending") := rfl

/-- Claim C4 as amended: for every inbound
`conversation.item.input_audio_transcription.completed` event whose
`transcript` field is non-empty, the event router calls the ordered
output queue with `(item_id, transcript)` and clears the partial display
buffer; an empty transcript field makes no call and leaves the buffer. -/
theorem route_completed_nonempty_calls_queue (itemId : Option String)
    (transcript buffer : String) (h : transcript ≠ "") :
    routeTranscriptionCompleted itemId transcript buffer =
      (some (itemId, transcript), "") := by
  unfold routeTranscriptionCompleted
  rw [if_pos h]

/-- Witness for the amended C4 at a concrete event. -/
theorem route_completed_nonempty_calls_queue_witness :
    routeTranscriptionCompleted (some "item_1") "hello" "pending" =
      (some (some "item_1", "hello"), "") :=
  route_completed_nonempty_calls_queue (some "item_1") "hello" "pending" (by decide)

/-! ## Claim C6: the reconnection backoff -/

/-- Claim C6 is a code bug: because `TranscriptionSession.run` resets
`reconnect_attempts` to zero unconditionally after every backoff sleep —
before the next connection is attempted, not once it succeeds — three
consecutive failed connections sleep `[1, 1, 1]` seconds instead of the
claimed `min(2^(n-1), 30) = [1, 2, 4]`, and no run of consecutive
failures, however long, ever trips the `max_reconnect_attempts = 10`
guard. -/
theorem reconnect_backoff_reset_is_unconditional :
    reconnectDelays [true, true, true] = [1, 1, 1] ∧
      ∀ script : List Bool, reconnectGivesUp script = false := by
  constructor
  · show (reconnectLoop 0 [true, true, true]).1 = [1, 1, 1]
    norm_num [reconnectLoop, pyMin]
  · intro script
    show (reconnectLoop 0 script).2 = false
    cases script with
    | nil => rfl
    | cons outcome rest =>
      rw [reconnectLoop]
      induction rest generalizing outcome with
      | nil =>
        cases outcome
        · rfl
        · simp only [if_pos rfl, if_neg (by omega : ¬ 10 < 0 + 1)]
          rfl
      | cons outcome' rest' ih =>
        cases outcome
        · rfl
        · simp only [if_pos rfl, if_neg (by omega : ¬ 10 < 0 + 1)]
          rw [reconnectLoop]
          exact ih outcome'

/-! ## Claim C10: blank text is never typed -/

/-- Claim C10: for every input string that is empty or consists only of
whitespace, `KeyboardTyper.type_text` returns `True` without invoking
any typing backend, so no keystrokes and no trailing separator space are
ever injected for a blank transcript. -/
theorem blank_text_types_nothing (method : Option (List Char → Except Unit Bool))
    (text : List Char) (h : ∀ c ∈ text, pyIsSpace c) :
    typeText method text = (true, []) := by
  have hstrip : stripWs text = [] := by
    unfold stripWs
    rw [List.dropWhile_eq_nil_iff.mpr h]
    exact List.rdropWhile_nil pyIsSpace
  unfold typeText
  rw [hstrip]
  rw [if_pos rfl]

/-- Witness for C10: two whitespace characters, a backend that would
type them — nothing is invoked and the call reports success. -/
theorem blank_text_types_nothing_witness :
    typeText (some fun _ => Except.ok false) [' ', '\t'] = (true, []) :=
  blank_text_types_nothing (some fun _ => Except.ok false) [' ', '\t'] (by decide)

/-! ## Claim C7: the best-offset search finds a non-empty chunk list -/

/-- The accumulator of `_find_best_chunk_match` holds a non-empty chunk
list. -/
def goodAcc (acc : Option (List β) × Option ℚ × Option ℤ) : Prop :=
  (∃ l, acc.1 = some l ∧ l ≠ []) ∧ acc.2.1 ≠ none

/-- Loop invariant: either nothing matched yet (`best_chunks is None`,
`best_duration_error == inf`) or the accumulator is good. -/
def accInv (acc : Option (List β) × Option ℚ × Option ℤ) : Prop :=
  (acc.1 = none ∧ acc.2.1 = none) ∨ goodAcc acc

theorem bestMatchStep_inv (buffer : List (ℤ × β)) (startMs endMs : ℤ)
    (acc : Option (List β) × Option ℚ × Option ℤ) (offset : ℤ) (h : accInv acc) :
    accInv (bestMatchStep buffer startMs endMs acc offset) := by
  unfold bestMatchStep
  split
  · exact h
  case isFalse hne =>
    split
    · exact Or.inr ⟨⟨_, rfl, by simpa [List.isEmpty_iff] using hne⟩, by simp⟩
    · exact h

theorem bestMatchStep_good (buffer : List (ℤ × β)) (startMs endMs : ℤ)
    (acc : Option (List β) × Option ℚ × Option ℤ) (offset : ℤ) (h : goodAcc acc) :
    goodAcc (bestMatchStep buffer startMs endMs acc offset) := by
  unfold bestMatchStep
  split
  · exact h
  case isFalse hne =>
    split
    · exact ⟨⟨_, rfl, by simpa [List.isEmpty_iff] using hne⟩, by simp⟩
    · exact h

theorem bestMatchStep_hit (buffer : List (ℤ × β)) (startMs endMs : ℤ)
    (acc : Option (List β) × Option ℚ × Option ℤ) (offset : ℤ) (h : accInv acc)
    (hne : offsetCandidates buffer startMs endMs offset ≠ []) :
    goodAcc (bestMatchStep buffer startMs endMs acc offset) := by
  unfold bestMatchStep
  rw [if_neg (by simpa [List.isEmpty_iff] using hne)]
  split
  · exact ⟨⟨_, rfl, hne⟩, by simp⟩
  case isFalse hlt =>
    rcases h with ⟨h1, h2⟩ | h
    · rw [h2] at hlt
      exact absurd rfl hlt
    · exact h

theorem foldl_bestMatchStep_inv (buffer : List (ℤ × β)) (startMs endMs : ℤ)
    (offsets : List ℤ) : ∀ acc, accInv acc →
    accInv (offsets.foldl (bestMatchStep buffer startMs endMs) acc) := by
  induction offsets with
  | nil => intro acc h; exact h
  | cons o rest ih =>
    intro acc h
    exact ih _ (bestMatchStep_inv buffer startMs endMs acc o h)

theorem foldl_bestMatchStep_good (buffer : List (ℤ × β)) (startMs endMs : ℤ)
    (offsets : List ℤ) : ∀ acc, goodAcc acc →
    goodAcc (offsets.foldl (bestMatchStep buffer startMs endMs) acc) := by
  induction offsets with
  | nil => intro acc h; exact h
  | cons o rest ih =>
    intro acc h
    exact ih _ (bestMatchStep_good buffer startMs endMs acc o h)

/-- If some offset of the scanned list yields a non-empty candidate
list, the fold ends with a non-empty best chunk list. -/
theorem foldl_bestMatchStep_hit (buffer : List (ℤ × β)) (startMs endMs : ℤ)
    (offsets : List ℤ) (offset : ℤ) (acc : Option (List β) × Option ℚ × Option ℤ)
    (hmem : offset ∈ offsets) (hinv : accInv acc)
    (hne : offsetCandidates buffer startMs endMs offset ≠ []) :
    goodAcc (offsets.foldl (bestMatchStep buffer startMs endMs) acc) := by
  obtain ⟨l1, l2, rfl⟩ := List.append_of_mem hmem
  rw [List.foldl_append, List.foldl_cons]
  apply foldl_bestMatchStep_good
  apply bestMatchStep_hit buffer startMs endMs _ offset _ hne
  exact foldl_bestMatchStep_inv buffer startMs endMs l1 acc hinv

/-- Claim C7: for every buffer and speech interval at least 300 ms long,
if some buffered chunk's timestamp lies within the ±200 ms margin of the
interval, the best-offset search (offsets −200, −180, …, +200, margin
200) returns a non-empty chunk list. -/
theorem best_offset_search_nonempty (buffer : List (ℤ × β)) (startMs endMs ts : ℤ)
    (chunk : β) (hdur : 300 ≤ endMs - startMs) (hmem : (ts, chunk) ∈ buffer)
    (hlo : startMs - 200 ≤ ts) (hhi : ts ≤ endMs + 200) :
    ∃ l, (findBestChunkMatch 200 buffer startMs endMs).1 = some l ∧ l ≠ [] := by
  -- The winning offset: the multiple of 20 at or below ts - startMs, capped at 200.
  set d := ts - startMs with hd
  set q := d / 20 with hq
  have hq1 : 20 * q ≤ d := by
    have h := Int.ediv_add_emod d 20
    have h2 := Int.emod_nonneg d (by norm_num : (20 : ℤ) ≠ 0)
    omega
  have hq2 : d < 20 * q + 20 := by
    have h := Int.ediv_add_emod d 20
    have h2 := Int.emod_lt_of_pos d (by norm_num : (0 : ℤ) < 20)
    omega
  have hqlo : -10 ≤ q := by omega
  -- Membership of the chosen offset in the scanned range.
  have hcount : (((200 + 1 : ℤ) - -200 + 20 - 1).ediv 20).toNat = 21 := by decide
  have hofmem : ∀ o : ℤ, -200 ≤ o → o ≤ 200 → (∃ m : ℤ, o = 20 * m) →
      o ∈ pyRange (-200) (200 + 1) 20 := by
    intro o h1 h2 hex
    obtain ⟨m, hm⟩ := hex
    unfold pyRange
    rw [hcount]
    apply List.mem_map.mpr
    refine ⟨(m + 10).toNat, ?_, ?_⟩
    · apply List.mem_range.mpr
      omega
    · omega
  -- Candidate membership of the witness chunk at a given offset.
  have hcand : ∀ o : ℤ, startMs + o ≤ ts → ts ≤ endMs + o →
      offsetCandidates buffer startMs endMs o ≠ [] := by
    intro o h1 h2
    have hfil : (ts, chunk) ∈ buffer.filter fun p =>
        decide (startMs + o ≤ p.1 ∧ p.1 ≤ endMs + o) :=
      List.mem_filter.mpr ⟨hmem, by simpa using ⟨h1, h2⟩⟩
    unfold offsetCandidates
    intro hcontra
    rw [List.map_eq_nil_iff] at hcontra
    rw [hcontra] at hfil
    exact absurd hfil (List.not_mem_nil _)
  -- Split on whether the floor offset exceeds the +200 cap.
  have hgood : goodAcc (findBestChunkMatch 200 buffer startMs endMs) := by
    by_cases hcap : 20 * q ≤ 200
    · exact foldl_bestMatchStep_hit buffer startMs endMs _ (20 * q) _
        (hofmem (20 * q) (by omega) (by omega) ⟨q, rfl⟩) (Or.inl ⟨rfl, rfl⟩)
        (hcand (20 * q) (by omega) (by omega))
    · exact foldl_bestMatchStep_hit buffer startMs endMs _ 200 _
        (hofmem 200 (by omega) (by omega) ⟨10, by norm_num⟩) (Or.inl ⟨rfl, rfl⟩)
        (hcand 200 (by omega) (by omega))
  exact hgood.1

/-- Witness for C7: one chunk stamped 150 ms inside a 0–400 ms interval
is found by the search. -/
theorem best_offset_search_nonempty_witness :
    ∃ l, (findBestChunkMatch 200 [((150 : ℤ), (7 : Nat))] 0 400).1 = some l ∧ l ≠ [] :=
  best_offset_search_nonempty [((150 : ℤ), (7 : Nat))] 0 400 150 7
    (by norm_num) (by decide) (by norm_num) (by norm_num)

/-! ## Claim C8: idempotence of the text filter -/

/-- No two adjacent characters of the list are both whitespace. -/
def NoAdjSp (l : List Char) : Prop :=
  l.Chain' fun a b => ¬(pyIsSpace a ∧ pyIsSpace b)

theorem mem_collapseWsAux_space (cs : List Char) : ∀ (afterSpace : Bool),
    ∀ c ∈ collapseWsAux afterSpace cs, pyIsSpace c → c = ' ' := by
  induction cs with
  | nil => intro afterSpace c hc; exact absurd hc (List.not_mem_nil c)
  | cons a rest ih =>
    intro afterSpace c hc hsp
    unfold collapseWsAux at hc
    by_cases ha : pyIsSpace a
    · rw [if_pos ha] at hc
      cases afterSpace with
      | true => exact ih true c (by simpa using hc) hsp
      | false =>
        rcases List.mem_cons.mp (by simpa using hc) with rfl | hc'
        · rfl
        · exact ih true c hc' hsp
    · rw [if_neg ha] at hc
      rcases List.mem_cons.mp hc with rfl | hc'
      · exact absurd hsp ha
      · exact ih false c hc' hsp

/-- After a space was just emitted, the streaming collapse never starts
with another space. -/
theorem collapseWsAux_true_head (cs : List Char) :
    ∀ c t, collapseWsAux true cs = c :: t → ¬ pyIsSpace c := by
  induction cs with
  | nil => intro c t h; exact absurd h (by simp [collapseWsAux])
  | cons a rest ih =>
    intro c t h
    unfold collapseWsAux at h
    by_cases ha : pyIsSpace a
    · rw [if_pos ha, if_pos rfl] at h
      exact ih c t h
    · rw [if_neg ha] at h
      obtain ⟨rfl, -⟩ := List.cons.inj h
      exact ha

theorem collapseWsAux_noAdj (cs : List Char) : ∀ afterSpace : Bool,
    NoAdjSp (collapseWsAux afterSpace cs) := by
  induction cs with
  | nil => intro afterSpace; exact List.chain'_nil
  | cons a rest ih =>
    intro afterSpace
    unfold collapseWsAux
    by_cases ha : pyIsSpace a
    · rw [if_pos ha]
      cases afterSpace with
      | true => exact ih true
      | false =>
        rw [if_neg (by simp)]
        apply List.chain'_cons'.mpr
        refine ⟨?_, ih true⟩
        intro b hb
        intro hcontra
        have := collapseWsAux_true_head rest b _ (List.head?_eq_some_iff.mp hb).choose_spec
        exact this hcontra.2
    · rw [if_neg ha]
      apply List.chain'_cons'.mpr
      refine ⟨?_, ih false⟩
      intro b hb
      intro hcontra
      exact ha hcontra.1

/-- On a string with no double whitespace and only plain spaces as
whitespace, the collapse is the identity (and so is its `afterSpace`
variant whenever the head is not whitespace). -/
theorem collapseWsAux_fixpoint (l : List Char)
    (hsp : ∀ c ∈ l, pyIsSpace c → c = ' ') (hadj : NoAdjSp l) :
    collapseWsAux false l = l ∧
      (∀ c t, l = c :: t → ¬ pyIsSpace c → collapseWsAux true l = l) := by
  induction l with
  | nil => exact ⟨rfl, fun c t h => absurd h (by simp)⟩
  | cons a rest ih =>
    have hsp' : ∀ c ∈ rest, pyIsSpace c → c = ' ' :=
      fun c hc => hsp c (List.mem_cons_of_mem a hc)
    have hadj' : NoAdjSp rest := hadj.tail
    obtain ⟨ih1, ih2⟩ := ih hsp' hadj'
    constructor
    · unfold collapseWsAux
      by_cases ha : pyIsSpace a
      · rw [if_pos ha, if_neg (by simp)]
        have haeq : a = ' ' := hsp a (List.mem_cons_self a rest) ha
        have hrest : collapseWsAux true rest = rest := by
          cases rest with
          | nil => rfl
          | cons b t =>
            have hb : ¬ pyIsSpace b := by
              have := (List.chain'_cons.mp hadj).1
              exact fun hb' => this ⟨ha, hb'⟩
            exact ih2 b t rfl hb
        rw [hrest, haeq]
      · rw [if_neg ha, ih1]
    · intro c t hct hc
      obtain ⟨rfl, rfl⟩ := List.cons.inj hct
      unfold collapseWsAux
      rw [if_neg hc, ih1]

/-- Every character surviving `stripWs` came from the input. -/
theorem stripWs_subset (l : List Char) : ∀ c ∈ stripWs l, c ∈ l := by
  intro c hc
  unfold stripWs at hc
  exact ((List.dropWhile_suffix pyIsSpace).sublist.subset
    (( List.rdropWhile_prefix pyIsSpace _).sublist.subset hc))

theorem stripWs_noAdj (l : List Char) (h : NoAdjSp l) : NoAdjSp (stripWs l) :=
  List.Chain'.prefix (h.suffix (List.dropWhile_suffix pyIsSpace)) ( List.rdropWhile_prefix pyIsSpace _)

/-- A non-empty `stripWs` result starts with a non-whitespace character. -/
theorem stripWs_head_not_space (l : List Char) :
    ∀ c t, stripWs l = c :: t → ¬ pyIsSpace c := by
  intro c t h
  unfold stripWs at h
  have hpre : (c :: t) <+: l.dropWhile pyIsSpace := h ▸ List.rdropWhile_prefix pyIsSpace _
  obtain ⟨t', ht'⟩ := hpre
  have hne : l.dropWhile pyIsSpace ≠ [] := by
    rw [← ht']
    simp
  have h? : (l.dropWhile pyIsSpace).head? = some c := by
    rw [← ht']
    rfl
  have hhead : (l.dropWhile pyIsSpace).head hne = c := by
    rw [List.head?_eq_head hne] at h?
    exact Option.some.inj h?
  have hnot := List.head_dropWhile_not pyIsSpace l hne
  rw [hhead] at hnot
  simp [hnot]

theorem stripWs_collapseWs_idem (text : List Char) :
    stripWs (collapseWs (stripWs (collapseWs text))) = stripWs (collapseWs text) := by
  have hsp : ∀ c ∈ stripWs (collapseWs text), pyIsSpace c → c = ' ' := fun c hc =>
    mem_collapseWsAux_space text false c (stripWs_subset (collapseWs text) c hc)
  have hadj : NoAdjSp (stripWs (collapseWs text)) :=
    stripWs_noAdj _ (collapseWsAux_noAdj text false)
  have hfix : collapseWs (stripWs (collapseWs text)) = stripWs (collapseWs text) :=
    (collapseWsAux_fixpoint _ hsp hadj).1
  rw [hfix]
  cases hcase : stripWs (collapseWs text) with
  | nil => rfl
  | cons c t =>
    have hc : ¬ pyIsSpace c := stripWs_head_not_space (collapseWs text) c t hcase
    unfold stripWs
    rw [List.dropWhile_cons, if_neg (by simpa using hc)]
    have hrd : List.rdropWhile pyIsSpace (stripWs (collapseWs text)) =
        stripWs (collapseWs text) := List.rdropWhile_idempotent pyIsSpace _
    rw [hcase] at hrd
    exact hrd

/-- With all three pattern lists empty — the configuration
`_load_filters` produces when `filters.yaml` is absent — `filter_text`
is just whitespace collapse followed by strip. -/
theorem filterText_empty_config (b1 b2 b3 : Bool) (text : List Char) :
    filterText emptyFilterConfig b1 b2 b3 text = stripWs (collapseWs text) := by
  unfold filterText emptyFilterConfig
  by_cases h : text = []
  · subst h
    simp [stripWs, collapseWs, collapseWsAux, List.rdropWhile_nil]
  · rw [if_neg h]
    simp

/-- Counterexample to claim C8 as stated: idempotence fails for some
loaded filter configurations. With the single (literal) hallucination
pattern `"ab"`, filtering `"aabb"` once yields `"ab"`, and filtering a
second time yields `""`. -/
theorem filter_text_not_idempotent :
    filterText ⟨[['a', 'b']], [], []⟩ false false false
        (filterText ⟨[['a', 'b']], [], []⟩ false false false ['a', 'a', 'b', 'b']) ≠
      filterText ⟨[['a', 'b']], [], []⟩ false false false ['a', 'a', 'b', 'b'] := by
  decide

/-- Claim C8 as amended: the text filter is idempotent for the empty
filter configuration (the default when no `filters.yaml` exists), for
every combination of allow-flags: the residual pipeline — whitespace
collapse followed by trim — changes nothing on a second application.
With non-empty substitution pattern lists a second application can keep
rewriting, so idempotence is not guaranteed for arbitrary
configurations. -/
theorem filter_text_idempotent_empty_config (b1 b2 b3 : Bool) (text : List Char) :
    filterText emptyFilterConfig b1 b2 b3
        (filterText emptyFilterConfig b1 b2 b3 text) =
      filterText emptyFilterConfig b1 b2 b3 text := by
  rw [filterText_empty_config, filterText_empty_config]
  exact stripWs_collapseWs_idem text

/-! ## Claim C9: the wtype keycode-22 splitter -/

theorem foldl_distinct_mem (l : List Char) : ∀ (acc : List Char) (x : Char),
    (x ∈ l.foldl (fun acc c => if c ∈ acc then acc else acc ++ [c]) acc) ↔
      x ∈ acc ∨ x ∈ l := by
  induction l with
  | nil => intro acc x; simp
  | cons c t ih =>
    intro acc x
    rw [List.foldl_cons, ih]
    by_cases hc : c ∈ acc
    · rw [if_pos hc]
      constructor
      · rintro (h | h)
        · exact Or.inl h
        · exact Or.inr (List.mem_cons_of_mem c h)
      · rintro (h | h)
        · exact Or.inl h
        · rcases List.mem_cons.mp h with rfl | h'
          · exact Or.inl hc
          · exact Or.inr h'
    · rw [if_neg hc]
      simp only [List.mem_append, List.mem_singleton, List.mem_cons]
      tauto

theorem mem_distinctSeq (l : List Char) (x : Char) : x ∈ distinctSeq l ↔ x ∈ l := by
  unfold distinctSeq
  rw [foldl_distinct_mem]
  simp

theorem foldl_distinct_extends (l : List Char) : ∀ acc : List Char,
    ∃ zs, l.foldl (fun acc c => if c ∈ acc then acc else acc ++ [c]) acc = acc ++ zs := by
  induction l with
  | nil => intro acc; exact ⟨[], by simp⟩
  | cons c t ih =>
    intro acc
    rw [List.foldl_cons]
    by_cases hc : c ∈ acc
    · rw [if_pos hc]
      exact ih acc
    · rw [if_neg hc]
      obtain ⟨zs, hzs⟩ := ih (acc ++ [c])
      exact ⟨c :: zs, by simpa using hzs⟩

/-- `distinctSeq` of a longer list extends `distinctSeq` of a prefix. -/
theorem distinctSeq_append (xs ys : List Char) :
    ∃ zs, distinctSeq (xs ++ ys) = distinctSeq xs ++ zs := by
  unfold distinctSeq
  rw [List.foldl_append]
  exact foldl_distinct_extends ys _

theorem distinctSeq_snoc (xs : List Char) (c : Char) :
    distinctSeq (xs ++ [c]) =
      if c ∈ xs then distinctSeq xs else distinctSeq xs ++ [c] := by
  unfold distinctSeq
  rw [List.foldl_append]
  by_cases hc : c ∈ xs
  · rw [if_pos hc]
    have : c ∈ xs.foldl (fun acc c => if c ∈ acc then acc else acc ++ [c]) [] := by
      rw [foldl_distinct_mem]
      exact Or.inr hc
    simp [this]
  · rw [if_neg hc]
    have : c ∉ xs.foldl (fun acc c => if c ∈ acc then acc else acc ++ [c]) [] := by
      rw [foldl_distinct_mem]
      simp [hc]
    simp [this]

/-- Distinct-count monotonicity along prefixes. -/
theorem distinctSeq_take_le (cs : List Char) (j p : Nat) (h : j ≤ p) :
    (distinctSeq (cs.take j)).length ≤ (distinctSeq (cs.take p)).length := by
  have hsplit : cs.take p = cs.take j ++ (cs.take p).drop j := by
    conv_lhs => rw [← List.take_append_drop j (cs.take p)]
    rw [List.take_take, Nat.min_eq_left h]
  obtain ⟨zs, hzs⟩ := distinctSeq_append (cs.take j) ((cs.take p).drop j)
  rw [hsplit, hzs]
  simp

/-- If the first `p` characters hold 13 distinct values and the
character at `p` is new, then the list's 14th distinct character (index
13 of `distinctSeq`) is exactly the character at `p`. -/
theorem distinctSeq_getD_13 (cs : List Char) (p : Nat) (hp : p < cs.length)
    (h13 : (distinctSeq (cs.take p)).length = 13)
    (hnotin : cs.getD p 'a' ∉ cs.take p) :
    (distinctSeq cs).getD 13 'a' = cs.getD p 'a' := by
  have hget : cs.getD p 'a' = cs[p] := by
    rw [List.getD_eq_getElem?_getD, List.getElem?_eq_getElem hp]
    rfl
  have htake : cs.take (p + 1) = cs.take p ++ [cs[p]] := by
    rw [List.take_succ, List.getElem?_eq_getElem hp]
    rfl
  have hds : distinctSeq (cs.take (p + 1)) = distinctSeq (cs.take p) ++ [cs[p]] := by
    rw [htake, distinctSeq_snoc, if_neg (hget ▸ hnotin)]
  obtain ⟨zs, hzs⟩ := distinctSeq_append (cs.take (p + 1)) (cs.drop (p + 1))
  rw [List.take_append_drop] at hzs
  rw [hzs, hds, hget]
  rw [List.getD_eq_getElem?_getD]
  rw [List.append_assoc, List.getElem?_append_right (by omega)]
  rw [h13]
  simp

theorem getD_append_left (xs ys : List Char) (k : Nat) (h : k < xs.length) (d : Char) :
    (xs ++ ys).getD k d = xs.getD k d := by
  rw [List.getD_eq_getElem?_getD, List.getD_eq_getElem?_getD, List.getElem?_append, if_pos h]

theorem getD_append_mid (xs : List Char) (c : Char) (ys : List Char) (d : Char) :
    (xs ++ c :: ys).getD xs.length d = c := by
  rw [List.getD_eq_getElem?_getD, List.getElem?_append_right (Nat.le_refl _)]
  simp

/-- Semantics of the keycode-22 scanning loop, generalised over the
already-processed prefix `past`: if the scan reports no 14th-distinct
position, the whole text has fewer than 14 distinct characters; if it
reports position `p`, the first `p` characters hold exactly 13 distinct
values, the character at `p` is new, and the reported
`last_alnum_before_14` is the last alphanumeric position before `p`
(`none` meaning there is none). -/
theorem scanAux_spec : ∀ (cs past seen : List Char) (i : Nat) (la : Option Nat),
    seen = distinctSeq past → i = past.length →
    (distinctSeq past).length < 14 →
    (la = none → ∀ k, k < past.length → ¬ pyIsAlnum ((past ++ cs).getD k 'a')) →
    (∀ j, la = some j → j < past.length ∧
      ∀ k, j < k → k < past.length → ¬ pyIsAlnum ((past ++ cs).getD k 'a')) →
    ((scanAux cs seen i la).1 = none → (distinctSeq (past ++ cs)).length < 14) ∧
    (∀ p, (scanAux cs seen i la).1 = some p →
      past.length ≤ p ∧ p < (past ++ cs).length ∧
      (distinctSeq ((past ++ cs).take p)).length = 13 ∧
      (past ++ cs).getD p 'a' ∉ (past ++ cs).take p ∧
      ((scanAux cs seen i la).2 = none →
        ∀ k, k < p → ¬ pyIsAlnum ((past ++ cs).getD k 'a')) ∧
      (∀ j, (scanAux cs seen i la).2 = some j →
        j < p ∧ ∀ k, j < k → k < p → ¬ pyIsAlnum ((past ++ cs).getD k 'a'))) := by
  intro cs
  induction cs with
  | nil =>
    intro past seen i la hseen hi hlen hnone hsome
    subst hseen hi
    constructor
    · intro _
      simpa using hlen
    · intro p hp
      simp [scanAux] at hp
  | cons c rest ih =>
    intro past seen i la hseen hi hlen hnone hsome
    subst hseen hi
    have happ : (past ++ [c]) ++ rest = past ++ c :: rest := by simp
    have hlen1 : (past ++ [c]).length = past.length + 1 := by simp
    -- the updated last-alnum value and its semantics over past ++ [c]
    have hla' :
        ((if pyIsAlnum c then some past.length else la) = none →
          ∀ k, k < (past ++ [c]).length →
            ¬ pyIsAlnum (((past ++ [c]) ++ rest).getD k 'a')) ∧
        (∀ j, (if pyIsAlnum c then some past.length else la) = some j →
          j < (past ++ [c]).length ∧
          ∀ k, j < k → k < (past ++ [c]).length →
            ¬ pyIsAlnum (((past ++ [c]) ++ rest).getD k 'a')) := by
      rw [happ, hlen1]
      by_cases hal : pyIsAlnum c
      · rw [if_pos hal]
        refine ⟨fun h => absurd h (by simp), ?_⟩
        intro j hj
        obtain rfl : past.length = j := Option.some.inj hj
        exact ⟨by omega, fun k hk1 hk2 => absurd hk1 (by omega)⟩
      · rw [if_neg hal]
        constructor
        · intro h k hk
          rcases Nat.lt_or_ge k past.length with hk' | hk'
          · exact hnone h k hk'
          · obtain rfl : k = past.length := by omega
            rw [getD_append_mid]
            exact hal
        · intro j hj
          obtain ⟨hj1, hj2⟩ := hsome j hj
          refine ⟨by omega, ?_⟩
          intro k hk1 hk2
          rcases Nat.lt_or_ge k past.length with hk' | hk'
          · exact hj2 k hk1 hk'
          · obtain rfl : k = past.length := by omega
            rw [getD_append_mid]
            exact hal
    by_cases hc : c ∈ distinctSeq past
    · -- re-seen character: recurse with the same seen set
      have hcpast : c ∈ past := (mem_distinctSeq past c).mp hc
      have hred : scanAux (c :: rest) (distinctSeq past) past.length la =
          scanAux rest (distinctSeq past) (past.length + 1)
            (if pyIsAlnum c then some past.length else la) := by
        simp only [scanAux, if_pos hc]
      have hds : distinctSeq (past ++ [c]) = distinctSeq past := by
        rw [distinctSeq_snoc, if_pos hcpast]
      have := ih (past ++ [c]) (distinctSeq past) (past.length + 1)
        (if pyIsAlnum c then some past.length else la) hds.symm hlen1.symm
        (hds ▸ hlen) hla'.1 hla'.2
      rw [happ, hlen1] at this
      rw [hred]
      refine ⟨this.1, ?_⟩
      intro p hp
      obtain ⟨h1, h2, h3, h4, h5, h6⟩ := this.2 p hp
      exact ⟨by omega, h2, h3, h4, h5, h6⟩
    · by_cases h14 : (distinctSeq past).length + 1 = 14
      · -- 14th distinct character found here
        have hred : scanAux (c :: rest) (distinctSeq past) past.length la =
            (some past.length, la) := by
          simp only [scanAux, if_neg hc, if_pos h14]
        rw [hred]
        constructor
        · intro h
          exact absurd h (by simp)
        · intro p hp
          obtain rfl : past.length = p := Option.some.inj hp
          have htake : (past ++ c :: rest).take past.length = past := by
            rw [show past ++ c :: rest = past ++ c :: rest from rfl]
            exact List.take_left past (c :: rest)
          refine ⟨Nat.le_refl _, by simp, ?_, ?_, ?_, ?_⟩
          · rw [htake]
            omega
          · rw [htake, getD_append_mid]
            exact fun hmem => hc ((mem_distinctSeq past c).mpr hmem)
          · intro h k hk
            have := hnone h k hk
            rwa [getD_append_left past (c :: rest) k hk 'a',
              ← getD_append_left past (c :: rest) k hk 'a'] at this
          · intro j hj
            obtain ⟨hj1, hj2⟩ := hsome j hj
            exact ⟨hj1, hj2⟩
      · -- new character, still fewer than 14 distinct: recurse
        have hred : scanAux (c :: rest) (distinctSeq past) past.length la =
            scanAux rest (distinctSeq past ++ [c]) (past.length + 1)
              (if pyIsAlnum c then some past.length else la) := by
          simp only [scanAux, if_neg hc, if_neg h14]
        have hcpast : c ∉ past := fun h => hc ((mem_distinctSeq past c).mpr h)
        have hds : distinctSeq (past ++ [c]) = distinctSeq past ++ [c] := by
          rw [distinctSeq_snoc, if_neg hcpast]
        have hlen' : (distinctSeq (past ++ [c])).length < 14 := by
          rw [hds]
          simp only [List.length_append, List.length_cons, List.length_nil]
          omega
        have := ih (past ++ [c]) (distinctSeq past ++ [c]) (past.length + 1)
          (if pyIsAlnum c then some past.length else la) hds.symm hlen1.symm
          hlen' hla'.1 hla'.2
        rw [happ, hlen1] at this
        rw [hred]
        refine ⟨this.1, ?_⟩
        intro p hp
        obtain ⟨h1, h2, h3, h4, h5, h6⟩ := this.2 p hp
        exact ⟨by omega, h2, h3, h4, h5, h6⟩

/-- When the character at `p` is new, the first `p + 1` characters hold
one more distinct value than the first `p`. -/
theorem distinctSeq_take_succ_of_new (cs : List Char) (p : Nat) (hp : p < cs.length)
    (hnotin : cs.getD p 'a' ∉ cs.take p) :
    (distinctSeq (cs.take (p + 1))).length = (distinctSeq (cs.take p)).length + 1 := by
  have hget : cs.getD p 'a' = cs[p] := by
    rw [List.getD_eq_getElem?_getD, List.getElem?_eq_getElem hp]
    rfl
  have htake : cs.take (p + 1) = cs.take p ++ [cs[p]] := by
    rw [List.take_succ, List.getElem?_eq_getElem hp]
    rfl
  rw [htake, distinctSeq_snoc, if_neg (hget ▸ hnotin)]
  simp

/-- The guarantee the keycode-22 splitter actually provides for each
chunk: fewer than 14 distinct characters, or a 14th distinct character
outside `UNSAFE_AT_22`, or no alphanumeric character strictly between
the chunk's start and its 14th-distinct position. -/
def chunkGuarded (chunk : List Char) : Prop :=
  (distinctSeq chunk).length < 14 ∨
  (distinctSeq chunk).getD 13 'a' ∉ unsafeAt22 ∨
  (∀ k, 0 < k → (distinctSeq (chunk.take (k + 1))).length < 14 →
    ¬ pyIsAlnum (chunk.getD k 'a'))

theorem splitGoAux_guarded : ∀ (fuel : Nat) (cs : List Char), cs.length ≤ fuel →
    ∀ chunk ∈ splitGoAux fuel cs, chunkGuarded chunk := by
  intro fuel
  induction fuel with
  | zero =>
    intro cs hlen chunk hchunk
    have hnil : cs = [] := List.length_eq_zero.mp (Nat.le_zero.mp hlen)
    subst hnil
    obtain rfl : chunk = [] := by simpa [splitGoAux] using hchunk
    exact Or.inl (by simp [distinctSeq])
  | succ fuel ih =>
    intro cs hlen chunk hchunk
    have hspec := scanAux_spec cs [] [] 0 none rfl rfl (by simp [distinctSeq])
      (fun _ k hk => absurd hk (by simp)) (fun j hj => absurd hj (by simp))
    simp only [List.nil_append, List.length_nil] at hspec
    rcases hscan : scan14 cs with ⟨p?, la?⟩
    have h14eq : scanAux cs [] 0 none = (p?, la?) := hscan
    rw [h14eq] at hspec
    simp only [splitGoAux, hscan] at hchunk
    -- keeping track of whether a 14th distinct character exists
    cases p? with
    | none =>
      obtain rfl : chunk = cs := by simpa using hchunk
      exact Or.inl (hspec.1 rfl)
    | some p =>
      obtain ⟨-, hplen, h13, hnew, hnoneOut, hsomeOut⟩ := hspec.2 p rfl
      have h14cnt : (distinctSeq (cs.take (p + 1))).length = 14 := by
        rw [distinctSeq_take_succ_of_new cs p hplen hnew, h13]
      have hbound : ∀ k, (distinctSeq (cs.take (k + 1))).length < 14 → k < p := by
        intro k hk
        by_contra hge
        have : (distinctSeq (cs.take (p + 1))).length ≤
            (distinctSeq (cs.take (k + 1))).length :=
          distinctSeq_take_le cs (p + 1) (k + 1) (by omega)
        omega
      cases la? with
      | none =>
        obtain rfl : chunk = cs := by simpa using hchunk
        refine Or.inr (Or.inr ?_)
        intro k hk0 hkcnt
        exact hnoneOut rfl k (hbound k hkcnt)
      | some j =>
        obtain ⟨hjp, hjlast⟩ := hsomeOut j rfl
        have hchunk2 : chunk ∈ (if cs.getD p 'a' ∈ unsafeAt22 ∧ 0 < j then
            cs.take j :: splitGoAux fuel (cs.drop j) else [cs]) := hchunk
        by_cases hcond : cs.getD p 'a' ∈ unsafeAt22 ∧ 0 < j
        · rw [if_pos hcond] at hchunk2
          rcases List.mem_cons.mp hchunk2 with rfl | hchunk'
          · refine Or.inl ?_
            have hle : (distinctSeq (cs.take j)).length ≤ (distinctSeq (cs.take p)).length :=
              distinctSeq_take_le cs j p (by omega)
            omega
          · have hdrop : (cs.drop j).length ≤ fuel := by
              simp only [List.length_drop]
              omega
            exact ih (cs.drop j) hdrop chunk hchunk'
        · rw [if_neg hcond] at hchunk2
          obtain rfl : chunk = cs := by simpa using hchunk2
          rcases Decidable.not_and_iff_or_not.mp hcond with hunsafe | hj0
          · refine Or.inr (Or.inl ?_)
            rw [distinctSeq_getD_13 _ p hplen h13 hnew]
            exact hunsafe
          · obtain rfl : j = 0 := by omega
            refine Or.inr (Or.inr ?_)
            intro k hk0 hkcnt
            exact hjlast k hk0 (hbound k hkcnt)

/-- Counterexample to claim C9 as stated: on the input
`"abcdefghijklm%"` the splitter returns the whole string as a single
chunk whose 14th distinct character is `%` — not alphanumeric (it merely
is not one of the unsafe keycode-22 punctuation characters). -/
theorem wtype_splitter_14th_distinct_not_alnum :
    splitForWtypeKeycode22
        ['a', 'b', 'c', 'd', 'e', 'f', 'g', 'h', 'i', 'j', 'k', 'l', 'm', '%'] =
      [['a', 'b', 'c', 'd', 'e', 'f', 'g', 'h', 'i', 'j', 'k', 'l', 'm', '%']] ∧
    (distinctSeq ['a', 'b', 'c', 'd', 'e', 'f', 'g', 'h', 'i', 'j', 'k', 'l', 'm', '%']).length
        = 14 ∧
    pyIsAlnum ((distinctSeq
        ['a', 'b', 'c', 'd', 'e', 'f', 'g', 'h', 'i', 'j', 'k', 'l', 'm', '%']).getD 13 'a')
      = false := by
  refine ⟨?_, ?_, ?_⟩ <;> decide

/-- Claim C9 as amended: for every ASCII input string, each chunk
produced by the wtype keycode-22 splitter either has fewer than 14
distinct characters, or its 14th distinct character (in first-occurrence
order from the chunk's start) is not one of the unsafe keycode-22
punctuation characters `UNSAFE_AT_22`, or — when the splitter could not
cut because no usable split point exists — the chunk has no alphanumeric
character strictly between its first position and its 14th-distinct
position. (The ASCII restriction marks the modelling boundary of
Python's Unicode-aware `str.isalnum`.) -/
theorem wtype_splitter_chunks_guarded (text : List Char)
    (hascii : ∀ c ∈ text, c.toNat < 128) :
    ∀ chunk ∈ splitForWtypeKeycode22 text, chunkGuarded chunk := by
  intro chunk hchunk
  unfold splitForWtypeKeycode22 at hchunk
  by_cases h : text = []
  · rw [if_pos h] at hchunk
    exact absurd hchunk (List.not_mem_nil chunk)
  · rw [if_neg h] at hchunk
    exact splitGoAux_guarded text.length text (Nat.le_refl _) chunk hchunk

/-- Witness for the amended C9 on the concrete input
`"abcdefghijklm.xyz"`: the final chunk `"m.xyz"` is guarded (it has
fewer than 14 distinct characters). -/
theorem wtype_splitter_chunks_guarded_witness :
    chunkGuarded ['m', '.', 'x', 'y', 'z'] :=
  wtype_splitter_chunks_guarded
    ['a', 'b', 'c', 'd', 'e', 'f', 'g', 'h', 'i', 'j', 'k', 'l', 'm', '.', 'x', 'y', 'z']
    (by decide) ['m', '.', 'x', 'y', 'z'] (by decide)

end Transcriber
